import Mathlib

/-!
Shallow embedding of the `gb` grouping tool (src/main.rs and src/arg.rs).

Modelling choices, stated once:

* `f64` values are idealized as rationals `ℚ`.  The only primitive whose
  result is not rational, `f64::sqrt`, is kept abstract as a parameter
  `fsqrt : ℚ → ℚ`, so every theorem that quantifies over `fsqrt` holds for
  an arbitrary rounding of the square root.
* Numeric parsing of cell strings (`str::parse::<f64>`, a standard-library
  collaborator) is a parameter `pf : String → Option ℚ`: `some v` models a
  successful parse, `none` a parse failure.
* The `Debug` rendering of an `f64` is a parameter `fmtVal : ℚ → String`.
* `record[i]` (a panicking index in Rust) is modelled with `List.getD i ""`;
  the csv reader of main.rs is built with the default non-flexible setting,
  so every record it yields has exactly the header's length, and theorems
  that need it carry equal-length hypotheses.
* The `DashMap` accumulator is modelled as an association list in first
  insertion order; iteration order of the real map is unspecified, and no
  theorem below depends on it.
-/

namespace GB

/-- src/arg.rs: `pub enum Summary \x7b Mean, N, StdDev, Var \x7d`. -/
inductive Summary where
  | Mean
  | N
  | StdDev
  | Var
deriving DecidableEq, Repr

/-- Left-to-right f64 summation, `list.iter().sum::<f64>()`. -/
def fsum (l : List ℚ) : ℚ := l.foldl (· + ·) 0

/-- The operation `e.powf(2.0)` applied by `Summary::Var`: squaring. -/
def powf2 (x : ℚ) : ℚ := x * x

/-- src/arg.rs `Summary::mean`. -/
def Summary.mean (list : List ℚ) : Option ℚ :=
  let sum := fsum list
  let count := list.length
  if 0 < count then some (sum / (count : ℚ)) else none

/-- src/arg.rs `Summary::std_deviation`; `fsqrt` models `f64::sqrt`. -/
def Summary.std_deviation (fsqrt : ℚ → ℚ) (list : List ℚ) : Option ℚ :=
  match Summary.mean list, list.length with
  | some list_mean, count =>
      if 0 < count then
        some (fsqrt (fsum (list.map fun value => (list_mean - value) * (list_mean - value))
          / (count : ℚ)))
      else none
  | none, _ => none

/-- src/arg.rs `Summary::inner_fn`. -/
def Summary.inner_fn (fsqrt : ℚ → ℚ) : Summary → List ℚ → Option ℚ
  | Summary.Mean, list => Summary.mean list
  | Summary.N, list => some ((list.length : ℚ))
  | Summary.StdDev, list => Summary.std_deviation fsqrt list
  | Summary.Var, list => (Summary.std_deviation fsqrt list).map powf2

/-- src/arg.rs `Summary::to_possible_value`: the name of each variant's
clap `PossibleValue` (none of them declares aliases). -/
def possibleValueName : Summary → String
  | Summary.Mean => "mean"
  | Summary.N => "N"
  | Summary.StdDev => "sd"
  | Summary.Var => "var"

/-- src/arg.rs `Summary::value_variants`. -/
def valueVariants : List Summary :=
  [Summary.Mean, Summary.N, Summary.StdDev, Summary.Var]

/-- Model of clap `PossibleValue::matches(value, ignore_case)` for a value
with no aliases: exact string equality, ASCII case folded first when
`ignoreCase` is set. -/
def pvMatches (name value : String) (ignoreCase : Bool) : Bool :=
  if ignoreCase then name.toLower == value.toLower else name == value

/-- src/arg.rs `impl FromStr for Summary`: tries each variant with
`matches(s, false)`.  The CLI value parser installed by `arg_summary`
(`value_parser!(Summary)`, clap's EnumValueParser, with the arg's
ignore-case setting left at its default `false`) performs the same
case-sensitive search. -/
def summaryFromStr (s : String) : Except String Summary :=
  match valueVariants.find? (fun variant => pvMatches (possibleValueName variant) s false) with
  | some variant => Except.ok variant
  | none => Except.error ("invalid variant: " ++ s)

/-- src/main.rs lines 14-21: the map `header_set`, built by inserting
`(header, index)` for each header cell in order.  A later insert with the
same name overwrites an earlier one; the definition is the lookup function
the finished map denotes. -/
def buildHeaderSet (headers : List String) : String → Option Nat :=
  headers.enum.foldl (fun m p => fun name => if name = p.2 then some p.1 else m name)
    (fun _ => none)

/-- src/main.rs line 32: the bail message. -/
def bailMsg : String :=
  "Either the field or the key(s) were not recognised, please check spelling."

/-- src/main.rs lines 23-39: check that the field and all keys occur in the
headers, bail with `bailMsg` otherwise, then unwrap the resolved positions
(`getD 0` models the `unwrap`, unreachable under the guard). -/
def headerResolve (headers : List String) (field : String) (keys : List String) :
    Except String (Nat × List Nat) :=
  let header_set := buildHeaderSet headers
  let contains_field := (header_set field).isSome
  let contains_keys := keys.all fun e => (header_set e).isSome
  if !contains_field || !contains_keys then Except.error bailMsg
  else Except.ok ((header_set field).getD 0, keys.map fun e => (header_set e).getD 0)

/-- src/main.rs lines 61-67: the group key of a record, built by
enumerating the record's cells and keeping those whose position occurs in
`key_indices` (in record order, each position at most once). -/
def groupKey (key_indices : List Nat) (record : List String) : List String :=
  (record.enum.filter fun p => key_indices.any fun ii => p.1 == ii).map fun p => p.2

/-- Lookup in the association-list model of the accumulator. -/
def mapLookup : List (List String × List ℚ) → List String → Option (List ℚ)
  | [], _ => none
  | (k, vs) :: rest, key => if key = k then some vs else mapLookup rest key

/-- The bucket stored under `key`, empty if the key is absent. -/
def bucketOf (m : List (List String × List ℚ)) (key : List String) : List ℚ :=
  (mapLookup m key).getD []

/-- src/main.rs line 68: `map.entry(keys).or_insert(Vec::new()).push(v)`. -/
def pushValue : List (List String × List ℚ) → List String → ℚ → List (List String × List ℚ)
  | [], key, v => [(key, [v])]
  | (k, vs) :: rest, key, v =>
      if key = k then (k, vs ++ [v]) :: rest else (k, vs) :: pushValue rest key v

/-- The loop state of src/main.rs lines 45-69: the accumulator `map`
together with the value the local `no_rows_skipped` has after the most
recent iteration.  The local is declared `let mut no_rows_skipped = 0`
INSIDE the loop body, so it restarts at 0 on every record. -/
structure IngestState where
  map : List (List String × List ℚ)
  no_rows_skipped : Nat
deriving DecidableEq, Repr

/-- One iteration of the record loop (src/main.rs lines 45-69): parse the
value cell; on failure set the freshly re-initialized skip local to 1 and
continue; on success append the parsed value to the bucket of the record's
group key. -/
def ingestStep (pf : String → Option ℚ) (field_index : Nat) (key_indices : List Nat)
    (st : IngestState) (record : List String) : IngestState :=
  match pf (record.getD field_index "") with
  | none => { map := st.map, no_rows_skipped := 0 + 1 }
  | some parsed_field =>
      { map := pushValue st.map (groupKey key_indices record) parsed_field
        no_rows_skipped := 0 }

/-- The whole record loop of src/main.rs, over the non-header records. -/
def ingest (pf : String → Option ℚ) (field_index : Nat) (key_indices : List Nat)
    (records : List (List String)) : IngestState :=
  records.foldl (ingestStep pf field_index key_indices) { map := [], no_rows_skipped := 0 }

/-- The Debug rendering of `Option<f64>`; `fmtVal` models the Debug
rendering of the float itself. -/
def fmtOpt (fmtVal : ℚ → String) : Option ℚ → String
  | none => "None"
  | some x => "Some(" ++ fmtVal x ++ ")"

/-- src/main.rs lines 71-75: the header line (key column names joined by
the delimiter, a tab, the literal token N) followed by one line per
(key, bucket) pair of the accumulator (key cells joined by the delimiter,
a tab, the Debug form of the summary). -/
def outputLines (fmtVal : ℚ → String) (fsqrt : ℚ → ℚ) (function : Summary) (delimiter : Char)
    (keys : List String) (m : List (List String × List ℚ)) : List String :=
  (String.intercalate delimiter.toString keys ++ "\t" ++ "N")
    :: m.map fun kv =>
        String.intercalate delimiter.toString kv.1 ++ "\t"
          ++ fmtOpt fmtVal (Summary.inner_fn fsqrt function kv.2)

/-- Spec-side description: the position of the last occurrence of `name`
in a header list, if any.  Used to characterize `buildHeaderSet`. -/
def lastIdx (name : String) : List String → Option Nat
  | [] => none
  | h :: t =>
      match lastIdx name t with
      | some j => some (j + 1)
      | none => if h = name then some 0 else none

/-- A concrete instance of the numeric-parse parameter used by witnesses
and counterexamples: accepts a few digit strings, rejects everything else
(in particular the marker NA). -/
def pfLit (s : String) : Option ℚ :=
  if s = "1" then some 1 else if s = "2" then some 2 else if s = "5" then some 5 else none

/-! Helper lemmas about the group-key computation. -/

/-- Filtering an enumeration by a predicate on positions and keeping the
cells is the same as filtering the positions `n, n+1, ...` and indexing. -/
theorem enumFrom_filter_map_snd (r : List String) :
    ∀ (n : Nat) (P : Nat → Bool),
      ((List.enumFrom n r).filter fun p => P p.1).map Prod.snd
        = ((List.range r.length).filter fun i => P (n + i)).map fun i => r.getD i "" := by
  induction r with
  | nil => intro n P; rfl
  | cons a t ih =>
      intro n P
      have hcons : List.enumFrom n (a :: t) = (n, a) :: List.enumFrom (n + 1) t := rfl
      have hrange : List.range (a :: t).length = 0 :: (List.range t.length).map Nat.succ := by
        simpa using List.range_succ_eq_map t.length
      rw [hcons, List.filter_cons, hrange, List.filter_cons]
      have htail :
          ((List.enumFrom (n + 1) t).filter fun p => P p.1).map Prod.snd
            = (((List.range t.length).map Nat.succ).filter fun i => P (n + i)).map
                fun i => (a :: t).getD i "" := by
        rw [List.filter_map, List.map_map, ih (n + 1) P]
        have hpred : ((fun i => P (n + i)) ∘ Nat.succ) = fun i => P (n + 1 + i) := by
          funext i
          have : n + Nat.succ i = n + 1 + i := by omega
          simp [Function.comp, this]
        rw [hpred]
        rfl
      by_cases hPn : P n
      · simp only [hPn, Nat.add_zero, if_pos, List.map_cons]
        exact congrArg (a :: ·) htail
      · simp only [hPn, Nat.add_zero, Bool.false_eq_true, if_neg, not_false_iff]
        exact htail

/-- The group key is the record's cells at the referenced positions, read
in ascending record-position order, each position contributing once. -/
theorem groupKey_eq_range_filter (key_indices : List Nat) (record : List String) :
    groupKey key_indices record
      = ((List.range record.length).filter fun i => key_indices.any fun ii => i == ii).map
          fun i => record.getD i "" := by
  have h := enumFrom_filter_map_snd record 0 fun i => key_indices.any fun ii => i == ii
  simpa [groupKey, List.enum] using h

/-- Two records of equal length have equal group keys exactly when their
cell tuples at the key positions (in configured order) agree. -/
theorem groupKey_eq_iff (key_indices : List Nat) (r1 r2 : List String)
    (hlen : r1.length = r2.length) :
    groupKey key_indices r1 = groupKey key_indices r2
      ↔ (key_indices.map fun i => r1.getD i "") = (key_indices.map fun i => r2.getD i "") := by
  rw [groupKey_eq_range_filter, groupKey_eq_range_filter, ← hlen,
    List.map_eq_map_iff, List.map_eq_map_iff]
  constructor
  · intro h i hi
    by_cases hin : i < r1.length
    · refine h i (List.mem_filter.mpr ⟨List.mem_range.mpr hin, ?_⟩)
      exact List.any_eq_true.mpr ⟨i, hi, by simp⟩
    · have h1 : r1.getD i "" = "" := List.getD_eq_default _ _ (Nat.le_of_not_lt hin)
      have h2 : r2.getD i "" = "" := List.getD_eq_default _ _ (by omega)
      rw [h1, h2]
  · intro h i hi
    obtain ⟨-, hany⟩ := List.mem_filter.mp hi
    obtain ⟨ii, hii, he⟩ := List.any_eq_true.mp hany
    have : i = ii := by simpa using he
    subst this
    exact h i hii

/-! Helper lemmas about the accumulator. -/

/-- Pushing a value appends it to the bucket of its own key. -/
theorem mapLookup_pushValue_self (m : List (List String × List ℚ)) (key : List String) (v : ℚ) :
    mapLookup (pushValue m key v) key = some (bucketOf m key ++ [v]) := by
  induction m with
  | nil => simp [pushValue, mapLookup, bucketOf]
  | cons kv rest ih =>
      obtain ⟨k, vs⟩ := kv
      by_cases h : key = k
      · simp [pushValue, mapLookup, bucketOf, h]
      · simp only [pushValue, if_neg h, mapLookup, ih, bucketOf]

/-- Pushing a value leaves every other key's bucket untouched. -/
theorem mapLookup_pushValue_other (m : List (List String × List ℚ)) (key key' : List String)
    (v : ℚ) (h : key ≠ key') :
    mapLookup (pushValue m key' v) key = mapLookup m key := by
  induction m with
  | nil => simp [pushValue, mapLookup, h]
  | cons kv rest ih =>
      obtain ⟨k, vs⟩ := kv
      by_cases hk : key' = k
      · subst hk
        simp [pushValue, mapLookup, h]
      · simp only [pushValue, if_neg hk, mapLookup, ih]

/-- One ingestion step never removes a value from a bucket. -/
theorem mem_bucketOf_ingestStep (pf : String → Option ℚ) (field_index : Nat)
    (key_indices : List Nat) (st : IngestState) (record : List String) (x : ℚ)
    (key : List String) (h : x ∈ bucketOf st.map key) :
    x ∈ bucketOf (ingestStep pf field_index key_indices st record).map key := by
  unfold ingestStep
  cases hpf : pf (record.getD field_index "") with
  | none => exact h
  | some v =>
      by_cases hk : key = groupKey key_indices record
      · subst hk
        simp only [bucketOf, mapLookup_pushValue_self, Option.getD_some]
        exact List.mem_append.mpr (Or.inl h)
      · simpa only [bucketOf, mapLookup_pushValue_other _ _ _ _ hk] using h

/-- Values present in a bucket survive the rest of the record loop. -/
theorem mem_bucketOf_foldl (pf : String → Option ℚ) (field_index : Nat)
    (key_indices : List Nat) (records : List (List String)) :
    ∀ (st : IngestState) (x : ℚ) (key : List String), x ∈ bucketOf st.map key →
      x ∈ bucketOf (records.foldl (ingestStep pf field_index key_indices) st).map key := by
  induction records with
  | nil => intro st x key h; exact h
  | cons r rest ih =>
      intro st x key h
      rw [List.foldl_cons]
      exact ih _ x key (mem_bucketOf_ingestStep pf field_index key_indices st r x key h)

/-- A record whose value cell parses contributes its parsed value to the
bucket of its group key, from any intermediate loop state. -/
theorem foldl_mem_bucket (pf : String → Option ℚ) (field_index : Nat)
    (key_indices : List Nat) (records : List (List String)) :
    ∀ (st : IngestState) (r : List String) (v : ℚ), r ∈ records →
      pf (r.getD field_index "") = some v →
      v ∈ bucketOf ((records.foldl (ingestStep pf field_index key_indices) st).map)
        (groupKey key_indices r) := by
  induction records with
  | nil => intro st r v hr _; cases hr
  | cons a rest ih =>
      intro st r v hr hv
      rw [List.foldl_cons]
      rcases List.mem_cons.mp hr with hra | hrr
      · subst hra
        apply mem_bucketOf_foldl
        unfold ingestStep
        rw [hv]
        simp only [bucketOf, mapLookup_pushValue_self, Option.getD_some]
        exact List.mem_append.mpr (Or.inr (List.mem_singleton.mpr rfl))
      · exact ih _ r v hrr hv

/-- A record whose value cell parses contributes its parsed value to the
bucket of its group key. -/
theorem ingest_mem_bucket (pf : String → Option ℚ) (field_index : Nat)
    (key_indices : List Nat) (records : List (List String)) (r : List String) (v : ℚ)
    (hr : r ∈ records) (hv : pf (r.getD field_index "") = some v) :
    v ∈ bucketOf (ingest pf field_index key_indices records).map (groupKey key_indices r) :=
  foldl_mem_bucket pf field_index key_indices records _ r v hr hv

/-- Pushing a value preserves the invariant that every bucket is
non-empty (a fresh bucket is born already holding the pushed value). -/
theorem pushValue_ne_nil (m : List (List String × List ℚ)) (key : List String) (v : ℚ)
    (h : ∀ kv ∈ m, kv.2 ≠ []) :
    ∀ kv ∈ pushValue m key v, kv.2 ≠ [] := by
  induction m with
  | nil =>
      intro kv hkv
      simp only [pushValue, List.mem_singleton] at hkv
      subst hkv
      simp
  | cons hd rest ih =>
      obtain ⟨k, vs⟩ := hd
      intro kv hkv
      by_cases hk : key = k
      · simp only [pushValue, if_pos hk, List.mem_cons] at hkv
        rcases hkv with hkv | hkv
        · subst hkv
          exact List.append_ne_nil_of_right_ne_nil _ (by simp)
        · exact h kv (List.mem_cons.mpr (Or.inr hkv))
      · simp only [pushValue, if_neg hk, List.mem_cons] at hkv
        rcases hkv with hkv | hkv
        · subst hkv
          exact h _ (List.mem_cons.mpr (Or.inl rfl))
        · exact ih (fun kv h2 => h kv (List.mem_cons.mpr (Or.inr h2))) kv hkv

/-- Every bucket of the accumulator is non-empty throughout the loop. -/
theorem foldl_buckets_ne_nil (pf : String → Option ℚ) (field_index : Nat)
    (key_indices : List Nat) (records : List (List String)) :
    ∀ (st : IngestState), (∀ kv ∈ st.map, kv.2 ≠ []) →
      ∀ kv ∈ (records.foldl (ingestStep pf field_index key_indices) st).map, kv.2 ≠ [] := by
  induction records with
  | nil => intro st h; exact h
  | cons r rest ih =>
      intro st h
      rw [List.foldl_cons]
      apply ih
      unfold ingestStep
      cases pf (r.getD field_index "") with
      | none => exact h
      | some v => exact pushValue_ne_nil st.map _ v h

/-- Every bucket of the final accumulator is non-empty. -/
theorem ingest_buckets_ne_nil (pf : String → Option ℚ) (field_index : Nat)
    (key_indices : List Nat) (records : List (List String)) :
    ∀ kv ∈ (ingest pf field_index key_indices records).map, kv.2 ≠ [] :=
  foldl_buckets_ne_nil pf field_index key_indices records _ (by intro kv h; cases h)

/-! Helper lemmas about the summary functions. -/

/-- The mean of a non-empty list is present. -/
theorem mean_eq_some (l : List ℚ) (h : l ≠ []) :
    Summary.mean l = some (fsum l / (l.length : ℚ)) := by
  have hl : 0 < l.length := List.length_pos.mpr h
  simp [Summary.mean, hl]

/-- The standard deviation of a non-empty list is present. -/
theorem std_deviation_isSome (fsqrt : ℚ → ℚ) (l : List ℚ) (h : l ≠ []) :
    ∃ s, Summary.std_deviation fsqrt l = some s := by
  have hl : 0 < l.length := List.length_pos.mpr h
  refine ⟨fsqrt (fsum (l.map fun value =>
    ((fsum l / (l.length : ℚ)) - value) * ((fsum l / (l.length : ℚ)) - value))
      / (l.length : ℚ)), ?_⟩
  rw [Summary.std_deviation, mean_eq_some l h]
  simp [hl]

/-- Every summary of a non-empty list is present. -/
theorem inner_fn_isSome (fsqrt : ℚ → ℚ) (function : Summary) (l : List ℚ) (h : l ≠ []) :
    ∃ x, Summary.inner_fn fsqrt function l = some x := by
  cases function with
  | Mean => exact ⟨_, mean_eq_some l h⟩
  | N => exact ⟨_, rfl⟩
  | StdDev => exact std_deviation_isSome fsqrt l h
  | Var =>
      obtain ⟨s, hs⟩ := std_deviation_isSome fsqrt l h
      exact ⟨powf2 s, by simp [Summary.inner_fn, hs]⟩

/-! Helper lemmas about header resolution. -/

/-- Folding overwriting inserts over an enumeration denotes: the last
position of the name if it occurs, the previous map's answer otherwise. -/
theorem enumFrom_foldl_insert (hs : List String) :
    ∀ (n : Nat) (m : String → Option Nat) (name : String),
      ((List.enumFrom n hs).foldl
          (fun m p => fun nm => if nm = p.2 then some p.1 else m nm) m) name
        = match lastIdx name hs with
          | some j => some (n + j)
          | none => m name := by
  induction hs with
  | nil => intro n m name; rfl
  | cons h t ih =>
      intro n m name
      have hcons : List.enumFrom n (h :: t) = (n, h) :: List.enumFrom (n + 1) t := rfl
      rw [hcons, List.foldl_cons, ih]
      cases hlt : lastIdx name t with
      | some j =>
          simp only [lastIdx, hlt]
          congr 1
          omega
      | none =>
          simp only [lastIdx, hlt]
          by_cases hname : name = h
          · subst hname
            simp
          · have : ¬(h = name) := fun he => hname he.symm
            simp [hname, this]

/-- `buildHeaderSet` answers the position of the last occurrence. -/
theorem buildHeaderSet_eq_lastIdx (hs : List String) (name : String) :
    buildHeaderSet hs name = lastIdx name hs := by
  have h := enumFrom_foldl_insert hs 0 (fun _ => none) name
  rw [buildHeaderSet, show hs.enum = List.enumFrom 0 hs from rfl, h]
  cases lastIdx name hs with
  | some j => simp
  | none => rfl

/-- `lastIdx` finds something exactly for the names that occur. -/
theorem lastIdx_isSome_iff (name : String) (hs : List String) :
    (lastIdx name hs).isSome ↔ name ∈ hs := by
  induction hs with
  | nil => simp [lastIdx]
  | cons h t ih =>
      cases hlt : lastIdx name t with
      | some j =>
          simp only [lastIdx, hlt, Option.isSome_some, true_iff]
          exact List.mem_cons.mpr (Or.inr (ih.mp (by simp [hlt])))
      | none =>
          have hnot : name ∉ t := fun hmem => by simp [hlt] at ih; exact ih hmem
          by_cases hname : h = name
          · subst hname
            simp [lastIdx, hlt]
          · simp only [lastIdx, hlt, if_neg hname, List.mem_cons]
            constructor
            · intro habs; cases habs
            · rintro (he | hmem)
              · exact absurd he.symm hname
              · exact absurd hmem hnot

/-- The position `lastIdx` returns is in range, carries the name, and no
later position does. -/
theorem lastIdx_spec (name : String) (hs : List String) :
    ∀ i, lastIdx name hs = some i →
      i < hs.length ∧ hs.getD i "" = name ∧
        ∀ j, i < j → j < hs.length → hs.getD j "" ≠ name := by
  induction hs with
  | nil => intro i hi; cases hi
  | cons h t ih =>
      intro i hi
      cases hlt : lastIdx name t with
      | some j =>
          rw [lastIdx, hlt] at hi
          obtain rfl : j + 1 = i := by simpa using hi
          obtain ⟨hjlen, hjname, hjlast⟩ := ih j hlt
          refine ⟨by simpa using Nat.succ_lt_succ hjlen, hjname, ?_⟩
          intro k hk hklen
          match k, hk with
          | k + 1, hk =>
              exact hjlast k (Nat.lt_of_succ_lt_succ hk) (by simpa using hklen)
      | none =>
          rw [lastIdx, hlt] at hi
          have hnot : name ∉ t := fun hmem => by
            have := (lastIdx_isSome_iff name t).mpr hmem
            simp [hlt] at this
          by_cases hname : h = name
          · rw [if_pos hname] at hi
            obtain rfl : 0 = i := by simpa using hi
            refine ⟨by simp, by simpa using hname, ?_⟩
            intro k hk hklen
            match k, hk with
            | k + 1, _ =>
                intro habs
                have hkt : k < t.length := by simpa using hklen
                have : t.getD k "" ∈ t := by
                  rw [List.getD_eq_getElem t "" hkt]
                  exact List.getElem_mem hkt
                rw [show (h :: t).getD (k + 1) "" = t.getD k "" from rfl] at habs
                rw [habs] at this
                exact hnot this
          · rw [if_neg hname] at hi
            cases hi

/-- A name is found by the header map exactly when it occurs in the header. -/
theorem buildHeaderSet_isSome_iff (hs : List String) (name : String) :
    (buildHeaderSet hs name).isSome ↔ name ∈ hs := by
  rw [buildHeaderSet_eq_lastIdx]
  exact lastIdx_isSome_iff name hs

/-- Header resolution bails exactly when the field or some key is absent
from the header, and the only error it ever produces is `bailMsg`. -/
theorem headerResolve_error_iff (headers : List String) (field : String) (keys : List String) :
    headerResolve headers field keys = Except.error bailMsg
      ↔ (field ∉ headers ∨ ∃ k ∈ keys, k ∉ headers) := by
  have hcond : (!(buildHeaderSet headers field).isSome
        || !(keys.all fun e => (buildHeaderSet headers e).isSome)) = true
      ↔ (field ∉ headers ∨ ∃ k ∈ keys, k ∉ headers) := by
    rw [Bool.or_eq_true, Bool.not_eq_true', Bool.not_eq_true']
    constructor
    · rintro (h1 | h2)
      · left
        intro hmem
        rw [(buildHeaderSet_isSome_iff headers field).mpr hmem] at h1
        cases h1
      · right
        by_contra hall
        push_neg at hall
        have : (keys.all fun e => (buildHeaderSet headers e).isSome) = true :=
          List.all_eq_true.mpr fun k hk => (buildHeaderSet_isSome_iff headers k).mpr (hall k hk)
        rw [this] at h2
        cases h2
    · rintro (h1 | ⟨k, hk, hknot⟩)
      · left
        rw [Bool.eq_false_iff]
        intro habs
        exact h1 ((buildHeaderSet_isSome_iff headers field).mp habs)
      · right
        rw [Bool.eq_false_iff]
        intro habs
        exact hknot ((buildHeaderSet_isSome_iff headers k).mp (List.all_eq_true.mp habs k hk))
  have hres : headerResolve headers field keys
      = if (!(buildHeaderSet headers field).isSome
            || !(keys.all fun e => (buildHeaderSet headers e).isSome))
        then Except.error bailMsg
        else Except.ok ((buildHeaderSet headers field).getD 0,
          keys.map fun e => (buildHeaderSet headers e).getD 0) := rfl
  rw [hres]
  by_cases hC : (!(buildHeaderSet headers field).isSome
      || !(keys.all fun e => (buildHeaderSet headers e).isSome)) = true
  · rw [if_pos hC]
    exact ⟨fun _ => hcond.mp hC, fun _ => rfl⟩
  · rw [if_neg hC]
    constructor
    · intro habs
      exact Except.noConfusion habs
    · intro hrhs
      exact absurd (hcond.mpr hrhs) hC

/-- The only strings the summary parser accepts are the four exact tokens. -/
theorem summaryFromStr_ok_cases (s : String) (v : Summary)
    (h : summaryFromStr s = Except.ok v) :
    s = "mean" ∨ s = "N" ∨ s = "sd" ∨ s = "var" := by
  by_cases h1 : s = "mean"
  · exact Or.inl h1
  by_cases h2 : s = "N"
  · exact Or.inr (Or.inl h2)
  by_cases h3 : s = "sd"
  · exact Or.inr (Or.inr (Or.inl h3))
  by_cases h4 : s = "var"
  · exact Or.inr (Or.inr (Or.inr h4))
  exfalso
  have e1 : ("mean" == s) = false := beq_eq_false_iff_ne.mpr fun he => h1 he.symm
  have e2 : ("N" == s) = false := beq_eq_false_iff_ne.mpr fun he => h2 he.symm
  have e3 : ("sd" == s) = false := beq_eq_false_iff_ne.mpr fun he => h3 he.symm
  have e4 : ("var" == s) = false := beq_eq_false_iff_ne.mpr fun he => h4 he.symm
  rw [summaryFromStr, valueVariants] at h
  rw [List.find?_cons_of_neg _ (by simp [pvMatches, possibleValueName, e1]),
    List.find?_cons_of_neg _ (by simp [pvMatches, possibleValueName, e2]),
    List.find?_cons_of_neg _ (by simp [pvMatches, possibleValueName, e3]),
    List.find?_cons_of_neg _ (by simp [pvMatches, possibleValueName, e4]),
    List.find?_nil] at h
  exact Except.noConfusion h

/-! Claim theorems. -/

/-- Claim C1, counterexample: with header [a, b, v] and configured keys
[b, a] (reversed relative to the header), the resolved key positions are
[1, 0], but the group key of the record [x, y, 1] is the record-order
tuple [x, y], not the Config.keys-order tuple [y, x] the claim requires. -/
theorem gb_C1_counterexample :
    headerResolve ["a", "b", "v"] "v" ["b", "a"] = Except.ok (2, [1, 0]) ∧
    groupKey [1, 0] ["x", "y", "1"] = ["x", "y"] ∧
    (["x", "y"] : List String) ≠ (["y", "x"] : List String) :=
  ⟨rfl, rfl, by decide⟩

/-- Claim C1, amended: the group key is the sequence of the record's cells
at the key positions in ascending record-position order, each referenced
position contributing once; it matches Config.keys order only when the
configured keys already appear in header order. -/
theorem gb_C1_group_key_record_order (key_indices : List Nat) (record : List String) :
    groupKey key_indices record
      = ((List.range record.length).filter fun i => key_indices.any fun ii => i == ii).map
          fun i => record.getD i "" :=
  groupKey_eq_range_filter key_indices record

/-- Claim C2, code bug: after ingesting two records whose value cells both
fail numeric parsing (out of two records total), the skip local holds 1,
not 2, because it is re-initialized to 0 inside the record loop; the
total-mass identity sum of bucket sizes plus skip = total records fails. -/
theorem gb_C2_skip_counter_lost :
    (ingest pfLit 1 [0] [["a", "NA"], ["b", "NA"]]).map = [] ∧
    (ingest pfLit 1 [0] [["a", "NA"], ["b", "NA"]]).no_rows_skipped = 1 ∧
    (((ingest pfLit 1 [0] [["a", "NA"], ["b", "NA"]]).map.map fun kv => kv.2.length).sum
        + (ingest pfLit 1 [0] [["a", "NA"], ["b", "NA"]]).no_rows_skipped) ≠ 2 :=
  ⟨rfl, rfl, by decide⟩

/-- Claim C3, counterexample: with the duplicated header [a, a], resolving
the name a yields position 1 (the last occurrence), not position 0 (the
first occurrence) as the claim requires. -/
theorem gb_C3_counterexample :
    headerResolve ["a", "a"] "a" ["a"] = Except.ok (1, [1]) ∧ (1 : Nat) ≠ 0 :=
  ⟨rfl, by decide⟩

/-- Claim C3, amended: when a Config-referenced name occurs more than once
in the header, resolution assigns it the position of its LAST occurrence
(each insert into the header map overwrites the previous one). -/
theorem gb_C3_last_occurrence_wins (headers : List String) (name : String)
    (h : name ∈ headers) :
    ∃ i, buildHeaderSet headers name = some i ∧ i < headers.length ∧
      headers.getD i "" = name ∧
      ∀ j, i < j → j < headers.length → headers.getD j "" ≠ name := by
  have hsome := (buildHeaderSet_isSome_iff headers name).mpr h
  obtain ⟨i, hi⟩ := Option.isSome_iff_exists.mp hsome
  rw [buildHeaderSet_eq_lastIdx] at hi
  obtain ⟨h1, h2, h3⟩ := lastIdx_spec name headers i hi
  exact ⟨i, by rw [buildHeaderSet_eq_lastIdx]; exact hi, h1, h2, h3⟩

/-- Claim C3, witness: the amended statement evaluated on the duplicated
header [a, a]. -/
theorem gb_C3_witness :
    ∃ i, buildHeaderSet ["a", "a"] "a" = some i ∧ i < (["a", "a"] : List String).length ∧
      (["a", "a"] : List String).getD i "" = "a" ∧
      ∀ j, i < j → j < (["a", "a"] : List String).length →
        (["a", "a"] : List String).getD j "" ≠ "a" :=
  gb_C3_last_occurrence_wins ["a", "a"] "a" (by decide)

/-- Claim C5: for every non-empty bucket the computed variance is exactly
the square of the computed standard deviation — Var applies the squaring
`powf(2.0)` to the very value StdDev returns, with the same divisor and
the same sums; the identity holds for every interpretation `fsqrt` of the
floating-point square root. -/
theorem gb_C5_var_eq_stddev_sq (fsqrt : ℚ → ℚ) (l : List ℚ) (h : l ≠ []) :
    ∃ s, Summary.inner_fn fsqrt Summary.StdDev l = some s ∧
      Summary.inner_fn fsqrt Summary.Var l = some (powf2 s) := by
  obtain ⟨s, hs⟩ := std_deviation_isSome fsqrt l h
  refine ⟨s, hs, ?_⟩
  show (Summary.std_deviation fsqrt l).map powf2 = some (powf2 s)
  rw [hs]
  rfl

/-- Claim C5, witness: the variance identity evaluated on the concrete
bucket [1, 2]. -/
theorem gb_C5_witness :
    ∃ s, Summary.inner_fn id Summary.StdDev [1, 2] = some s ∧
      Summary.inner_fn id Summary.Var [1, 2] = some (powf2 s) :=
  gb_C5_var_eq_stddev_sq id [1, 2] (by decide)

/-- Claim C6, counterexample: parsing of the summary token is NOT
case-insensitive — the uppercase variant MEAN of mean and the lowercase
variant n of N are both rejected (`matches` is called with ignore-case
false, and the CLI arg never enables ignore-case). -/
theorem gb_C6_counterexample :
    summaryFromStr "MEAN" = Except.error ("invalid variant: " ++ "MEAN") ∧
    summaryFromStr "n" = Except.error ("invalid variant: " ++ "n") :=
  ⟨rfl, rfl⟩

/-- Claim C6, amended: summary-token matching is case-sensitive: exactly
the four tokens mean, N, sd, var parse, each to its own variant; every
other string (case variants included) is rejected. -/
theorem gb_C6_case_sensitive :
    summaryFromStr "mean" = Except.ok Summary.Mean ∧
    summaryFromStr "N" = Except.ok Summary.N ∧
    summaryFromStr "sd" = Except.ok Summary.StdDev ∧
    summaryFromStr "var" = Except.ok Summary.Var ∧
    ∀ s v, summaryFromStr s = Except.ok v → (s = "mean" ∨ s = "N" ∨ s = "sd" ∨ s = "var") :=
  ⟨rfl, rfl, rfl, rfl, fun s v h => summaryFromStr_ok_cases s v h⟩

/-- Claim C6, witness: the amended statement applied to the accepted
token sd. -/
theorem gb_C6_witness :
    "sd" = "mean" ∨ "sd" = "N" ∨ "sd" = "sd" ∨ "sd" = "var" :=
  gb_C6_case_sensitive.2.2.2.2 "sd" Summary.StdDev rfl

/-- Claim C7: two ingested records whose value cells parse have their
values placed in the buckets addressed by their group keys, and (for
records of equal length, as the csv reader guarantees) the group keys
coincide exactly when the cell tuples at the key positions coincide — so
identical tuples share a bucket and differing tuples use different
buckets. -/
theorem gb_C7_key_partition (pf : String → Option ℚ) (field_index : Nat)
    (key_indices : List Nat) (records : List (List String)) (r1 r2 : List String)
    (v1 v2 : ℚ) (h1 : r1 ∈ records) (h2 : r2 ∈ records)
    (hp1 : pf (r1.getD field_index "") = some v1)
    (hp2 : pf (r2.getD field_index "") = some v2)
    (hlen : r1.length = r2.length) :
    v1 ∈ bucketOf (ingest pf field_index key_indices records).map (groupKey key_indices r1) ∧
    v2 ∈ bucketOf (ingest pf field_index key_indices records).map (groupKey key_indices r2) ∧
    (groupKey key_indices r1 = groupKey key_indices r2
      ↔ (key_indices.map fun i => r1.getD i "") = (key_indices.map fun i => r2.getD i "")) :=
  ⟨ingest_mem_bucket pf field_index key_indices records r1 v1 h1 hp1,
   ingest_mem_bucket pf field_index key_indices records r2 v2 h2 hp2,
   groupKey_eq_iff key_indices r1 r2 hlen⟩

/-- Claim C7, witness: the partition property evaluated on two concrete
records sharing the key cell x. -/
theorem gb_C7_witness :
    (1 : ℚ) ∈ bucketOf (ingest pfLit 1 [0] [["x", "1"], ["x", "2"]]).map
        (groupKey [0] ["x", "1"]) ∧
    (2 : ℚ) ∈ bucketOf (ingest pfLit 1 [0] [["x", "1"], ["x", "2"]]).map
        (groupKey [0] ["x", "2"]) ∧
    (groupKey [0] ["x", "1"] = groupKey [0] ["x", "2"]
      ↔ (([0] : List Nat).map fun i => (["x", "1"] : List String).getD i "")
          = (([0] : List Nat).map fun i => (["x", "2"] : List String).getD i "")) :=
  gb_C7_key_partition pfLit 1 [0] [["x", "1"], ["x", "2"]] ["x", "1"] ["x", "2"] 1 2
    (by decide) (by decide) rfl rfl rfl

/-- Claim C8, counterexample: resolution of the missing column zzz fails
with the fixed message, but that message does not name the missing column
(it contains no letter z at all), refuting the claim that the error names
all missing columns. -/
theorem gb_C8_counterexample :
    headerResolve ["a"] "zzz" ["a"] = Except.error bailMsg ∧ 'z' ∉ bailMsg.toList :=
  ⟨rfl, by decide⟩

/-- Claim C8, amended: header resolution fails exactly when some name in
the set holding the field and the keys is absent from the header, and the
user-visible message is exactly the fixed spelling hint — which names no
columns. -/
theorem gb_C8_unknown_column (headers : List String) (field : String) (keys : List String) :
    headerResolve headers field keys = Except.error bailMsg
      ↔ (field ∉ headers ∨ ∃ k ∈ keys, k ∉ headers) :=
  headerResolve_error_iff headers field keys

/-- Claim C8, witness: the amended statement evaluated at the missing
field zzz. -/
theorem gb_C8_witness : headerResolve ["a"] "zzz" ["a"] = Except.error bailMsg :=
  (gb_C8_unknown_column ["a"] "zzz" ["a"]).mpr (Or.inl (by decide))

/-- Claim C9: the first output line is the configured key column names
joined by the field delimiter, a tab, then the literal token N regardless
of the chosen summary; every further line is a group's key cells joined by
the field delimiter, a tab (even when the delimiter is itself a tab: the
tab is appended unconditionally), then the Debug form of the optional
summary value. -/
theorem gb_C9_output_format (fmtVal : ℚ → String) (fsqrt : ℚ → ℚ) (function : Summary)
    (delimiter : Char) (keys : List String) (m : List (List String × List ℚ)) :
    (outputLines fmtVal fsqrt function delimiter keys m).head?
      = some (String.intercalate delimiter.toString keys ++ "\t" ++ "N") ∧
    ∀ line ∈ (outputLines fmtVal fsqrt function delimiter keys m).tail,
      ∃ kv ∈ m, line = String.intercalate delimiter.toString kv.1 ++ "\t"
        ++ fmtOpt fmtVal (Summary.inner_fn fsqrt function kv.2) := by
  refine ⟨rfl, ?_⟩
  intro line hline
  rw [outputLines] at hline
  simp only [List.tail_cons] at hline
  obtain ⟨kv, hkv, hline⟩ := List.mem_map.mp hline
  exact ⟨kv, hkv, hline.symm⟩

/-- Claim C9, witness: the group-line shape evaluated on a concrete
accumulator with a tab delimiter. -/
theorem gb_C9_witness :
    ∃ kv ∈ [((["x"] : List String), ([1] : List ℚ))],
      "x\tSome(1)" = String.intercalate (Char.toString '\t') kv.1 ++ "\t"
        ++ fmtOpt (fun _ => "1") (Summary.inner_fn id Summary.N kv.2) :=
  (gb_C9_output_format (fun _ => "1") id Summary.N '\t' ["k"] [(["x"], [1])]).2
    "x\tSome(1)" (by decide)

/-- Claim C10: every bucket of the accumulator is non-empty (a bucket is
created only together with its first value), so every emitted group line
carries a present summary (some value) for each of the four summaries, and
the None rendering never appears for a stored group. -/
theorem gb_C10_nonempty_buckets (pf : String → Option ℚ) (field_index : Nat)
    (key_indices : List Nat) (records : List (List String)) :
    ∀ kv ∈ (ingest pf field_index key_indices records).map,
      kv.2 ≠ [] ∧ ∀ (fsqrt : ℚ → ℚ) (function : Summary),
        ∃ x, Summary.inner_fn fsqrt function kv.2 = some x := by
  intro kv hkv
  have hne := ingest_buckets_ne_nil pf field_index key_indices records kv hkv
  exact ⟨hne, fun fsqrt function => inner_fn_isSome fsqrt function kv.2 hne⟩

/-- Claim C10, witness: the invariant evaluated on the accumulator built
from one concrete record. -/
theorem gb_C10_witness :
    ((["a"] : List String), ([1] : List ℚ)).2 ≠ [] ∧
    ∀ (fsqrt : ℚ → ℚ) (function : Summary),
      ∃ x, Summary.inner_fn fsqrt function ((["a"] : List String), ([1] : List ℚ)).2 = some x :=
  gb_C10_nonempty_buckets pfLit 1 [0] [["a", "1"]] (["a"], [1]) (by decide)

end GB
